import Mathlib

/-!
Verification of the resolution pipeline of `src/data/data_downloader.py`
(repository `ItIsUday/artron`).

Python strings are modelled as `List Char`; a pandas `DataFrame` holding the
TOI catalog is modelled as a list of rows (`TOIRow`) carrying the three columns
the pipeline reads; a Python `dict` is modelled as an association list with
in-place update of the first matching key (Python dicts keep insertion order
and replace in place).  Fallible code (the `int(...)` call inside
`get_tic_to_sectors`, whose `ValueError` propagates and aborts the run) is
modelled in the `Option` monad: `none` is the uncaught exception.
-/

namespace Artron

/-- Python `s.rjust(width, fill)`: left-pad `s` with `fill` up to `width`;
a string already of length `width` or longer is returned unchanged
(`Nat` subtraction makes the padding empty in that case). -/
def rjust (s : List Char) (width : Nat) (fill : Char) : List Char :=
  List.replicate (width - s.length) fill ++ s

/-- `CONSIDERED_SECTORS = range(1, 27)` together with the membership test
`int(sector) in CONSIDERED_SECTORS` used by `get_tic_to_sectors`. -/
def CONSIDERED_SECTORS (n : Int) : Bool :=
  decide (1 ≤ n) && decide (n < 27)

/-- The value of a list of decimal digit characters, most significant first. -/
def digitsVal (l : List Char) : Nat :=
  l.foldl (fun acc c => 10 * acc + (c.toNat - '0'.toNat)) 0

/-- Strip surrounding whitespace, as Python `int(...)` does on its string
argument. -/
def stripPyWS (s : List Char) : List Char :=
  ((s.dropWhile Char.isWhitespace).reverse.dropWhile Char.isWhitespace).reverse

/-- Python `int(s)` on a string: surrounding whitespace is stripped, an
optional single sign is allowed, and the remainder must be a non-empty run of
decimal digits; otherwise a `ValueError` is raised (modelled as `none`). -/
def parse_py_int (s : List Char) : Option Int :=
  match stripPyWS s with
  | [] => none
  | c :: ds =>
    if c = '+' then
      if ds ≠ [] ∧ ds.all Char.isDigit then some (digitsVal ds : Int) else none
    else if c = '-' then
      if ds ≠ [] ∧ ds.all Char.isDigit then some (-(digitsVal ds : Int)) else none
    else if (c :: ds).all Char.isDigit then some (digitsVal (c :: ds) : Int) else none

/-- Python `s.split(",")`: split on every comma, keeping empty pieces
(`"".split(",") == [""]`). -/
def splitComma : List Char → List (List Char)
  | [] => [[]]
  | c :: rest =>
    if c = ',' then [] :: splitComma rest
    else
      match splitComma rest with
      | [] => [[c]]
      | h :: t => (c :: h) :: t

/-- One catalog row, carrying the three columns the pipeline reads:
`"TFOPWG Disposition"`, `"TIC ID"` and `"Sectors"`. -/
structure TOIRow where
  tfopwgDisposition : String
  ticId : String
  sectors : List Char
  deriving DecidableEq, Repr

/-- `filter_positive_toi_df`: keep the rows whose `"TFOPWG Disposition"`
is in `["CP", "KP"]` (pandas `isin`), preserving row order. -/
def filter_positive_toi_df (toi_df : List TOIRow) : List TOIRow :=
  toi_df.filter (fun r => (["CP", "KP"] : List String).contains r.tfopwgDisposition)

/-- `list(filter(lambda sector: int(sector) in CONSIDERED_SECTORS, sectors.split(",")))`:
evaluate `int` on each piece in order (a failure raises, i.e. yields `none`)
and keep the string pieces whose value is a considered sector. -/
def keepSectors : List (List Char) → Option (List (List Char))
  | [] => some []
  | p :: ps =>
    (parse_py_int p).bind fun n =>
      (keepSectors ps).map fun rest =>
        if CONSIDERED_SECTORS n then p :: rest else rest

/-- Python dict assignment `d[k] = v`: replace the value of an existing key in
place, otherwise append the new binding. -/
def updateAssoc (m : List (String × List (List Char))) (k : String)
    (v : List (List Char)) : List (String × List (List Char)) :=
  match m with
  | [] => [(k, v)]
  | (k', v') :: rest =>
    if k' = k then (k, v) :: rest else (k', v') :: updateAssoc rest k v

/-- Python dict lookup `d[k]` / `k in d`, as an `Option`. -/
def lookupAssoc (m : List (String × List (List Char))) (k : String) :
    Option (List (List Char)) :=
  match m with
  | [] => none
  | (k', v') :: rest => if k' = k then some v' else lookupAssoc rest k

/-- The loop body of `get_tic_to_sectors`: fold over the rows, keeping the
in-range sector strings of each row and storing them under the row's TIC ID
when at least one survives. -/
def get_tic_to_sectors_aux (acc : List (String × List (List Char))) :
    List TOIRow → Option (List (String × List (List Char)))
  | [] => some acc
  | row :: rest =>
    (keepSectors (splitComma row.sectors)).bind fun fs =>
      get_tic_to_sectors_aux (if fs = [] then acc else updateAssoc acc row.ticId fs) rest

/-- `get_tic_to_sectors`: build the TIC-ID-to-sectors dictionary. -/
def get_tic_to_sectors (toi_df : List TOIRow) :
    Option (List (String × List (List Char))) :=
  get_tic_to_sectors_aux [] toi_df

/-- One step of the reference fold `lastNonemptyRetained`: a row for the given
TIC ID replaces the accumulated value when its retained sector list is
non-empty (a row that fails to parse, or retains nothing, leaves it alone). -/
def lnrStep (tic : String) (acc : Option (List (List Char))) (row : TOIRow) :
    Option (List (List Char)) :=
  if row.ticId = tic then
    (((keepSectors (splitComma row.sectors)).bind fun fs =>
        if fs = [] then none else some fs)).or acc
  else acc

/-- Reference description (for the amended claim C10): the retained sector list
of the last catalog row with the given TIC ID whose retained list is
non-empty, if any. -/
def lastNonemptyRetained (rows : List TOIRow) (tic : String) :
    Option (List (List Char)) :=
  rows.foldl (lnrStep tic) none

/-- Python `"/".join(pieces)`. -/
def joinSlash : List (List Char) → List Char
  | [] => []
  | [x] => x
  | x :: xs => x ++ '/' :: joinSlash xs

/-- `generate_uri`: pad the TIC ID to 16 characters, build the sector token
`"s" + sector.rjust(4, "0")`, cut the padded TIC ID into 4-character slices
`tic[i:i+4]` for `i in range(0, len(tic), 4)` joined by `"/"`, and fill the
fixed URI template. -/
def generate_uri (tic sector : List Char) : List Char :=
  let tic16 := rjust tic 16 '0'
  let sec := 's' :: rjust sector 4 '0'
  let target := joinSlash
    ((List.range' 0 ((tic16.length + 3) / 4) 4).map (fun i => (tic16.drop i).take 4))
  "mast:HLSP/tess-spoc/".toList ++ sec ++ "/target/".toList ++ target ++
    "/hlsp_tess-spoc_tess_phot_".toList ++ tic16 ++ ['-'] ++ sec ++
    "_tess_v1_lc.fits".toList

/-- The trailing filename of the produced identifier, as a function of the
padded TIC ID `T` and the padded sector digits `D`. -/
def fnameCore (T D : List Char) : List Char :=
  "hlsp_tess-spoc_tess_phot_".toList ++
    (T ++ ('-' :: 's' :: (D ++ "_tess_v1_lc.fits".toList)))

/-- The produced identifier as a function of the padded TIC ID `T` (16 chars)
and the padded sector digits `D` (4 chars), in right-associated form. -/
def uriOf (T D : List Char) : List Char :=
  "mast:HLSP/tess-spoc/".toList ++
    ('s' :: (D ++ ("/target/".toList ++
      (T.take 4 ++ ('/' :: ((T.drop 4).take 4 ++ ('/' :: ((T.drop 8).take 4 ++
        ('/' :: ((T.drop 12).take 4 ++ ('/' :: fnameCore T D)))))))))))

/-- The positions at which `pat` occurs in `text` (as a prefix of the
corresponding suffix). -/
def occList (pat text : List Char) : List Nat :=
  (List.range (text.length + 1)).filter (fun i => pat.isPrefixOf (text.drop i))

/-- The number of occurrences of `pat` in `text`. -/
def countOccs (pat text : List Char) : Nat :=
  (occList pat text).length

/-- Modelled from the spec (§8 round-trip requirement; the repository has no
decoder): strip the fixed template markers of a produced identifier and
re-extract the epoch token and the zero-padded target id verbatim. -/
def decode_identifier (uri : List Char) : Option (List Char × List Char) :=
  if "mast:HLSP/tess-spoc/".toList.isPrefixOf uri then
    let tok := (uri.drop 20).take 5
    let rest := uri.drop 25
    if "/target/".toList.isPrefixOf rest then
      let body := rest.drop 28
      if "hlsp_tess-spoc_tess_phot_".toList.isPrefixOf body then
        if body.drop 41 = '-' :: (tok ++ "_tess_v1_lc.fits".toList) then
          some ((body.drop 25).take 16, tok)
        else none
      else none
    else none
  else none

end Artron

namespace Artron

/-- The filter predicate of `filter_positive_toi_df` accepts exactly the
dispositions "CP" and "KP". -/
theorem accepted_disposition_iff (r : TOIRow) :
    ((["CP", "KP"] : List String).contains r.tfopwgDisposition = true) ↔
      (r.tfopwgDisposition = "CP" ∨ r.tfopwgDisposition = "KP") := by
  simp [List.contains_cons]

/-- Claim C1: for target id "12345678" and epoch 7, `generate_uri` produces the
fixed template instantiated with epoch token `s0007`, padded target id
`0000000012345678` and target path `0000/0000/1234/5678`, i.e. the identifier
`mast:HLSP/tess-spoc/s0007/target/0000/0000/1234/5678/hlsp_tess-spoc_tess_phot_0000000012345678-s0007_tess_v1_lc.fits`. -/
theorem C1_concrete_identifier :
    generate_uri "12345678".toList "7".toList =
      ("mast:HLSP/tess-spoc/s0007/target/0000/0000/1234/5678/" ++
        "hlsp_tess-spoc_tess_phot_0000000012345678-s0007_tess_v1_lc.fits").toList := by
  decide

/-- Claim C8: the catalog filter returns exactly the subsequence of rows whose
disposition is in the accepted set "CP"/"KP" (order preserved, matching rows
kept with their multiplicity), rows with any other disposition (e.g. "FP") are
excluded, and when no row matches the result is the empty table. -/
theorem C8_filter_subsequence (toi_df : List TOIRow) :
    (filter_positive_toi_df toi_df).Sublist toi_df ∧
    (∀ r ∈ filter_positive_toi_df toi_df,
        r.tfopwgDisposition = "CP" ∨ r.tfopwgDisposition = "KP") ∧
    (∀ r : TOIRow, (r.tfopwgDisposition = "CP" ∨ r.tfopwgDisposition = "KP") →
        (filter_positive_toi_df toi_df).count r = toi_df.count r) ∧
    (∀ r ∈ toi_df, r.tfopwgDisposition = "FP" → r ∉ filter_positive_toi_df toi_df) ∧
    ((∀ r ∈ toi_df, r.tfopwgDisposition ≠ "CP" ∧ r.tfopwgDisposition ≠ "KP") →
        filter_positive_toi_df toi_df = []) := by
  refine ⟨List.filter_sublist toi_df, ?_, ?_, ?_, ?_⟩
  · intro r hr
    have := (List.mem_filter.mp hr).2
    exact (accepted_disposition_iff r).mp this
  · intro r hr
    exact List.count_filter ((accepted_disposition_iff r).mpr hr)
  · intro r _ hfp hmem
    have := (accepted_disposition_iff r).mp (List.mem_filter.mp hmem).2
    rcases this with h | h <;> rw [hfp] at h <;> simp at h
  · intro hnone
    refine List.filter_eq_nil_iff.mpr ?_
    intro r hr hacc
    have := (accepted_disposition_iff r).mp hacc
    rcases hnone r hr with ⟨h1, h2⟩
    rcases this with h | h
    · exact h1 h
    · exact h2 h

/-- Witness for C8 at a concrete three-row table: a "CP" and a "KP" row are
kept in order, the "FP" row is dropped. -/
theorem C8_filter_subsequence_witness :
    (filter_positive_toi_df
        [⟨"CP", "1", "1".toList⟩, ⟨"FP", "2", "2".toList⟩, ⟨"KP", "3", "3".toList⟩]).Sublist
        [⟨"CP", "1", "1".toList⟩, ⟨"FP", "2", "2".toList⟩, ⟨"KP", "3", "3".toList⟩] ∧
    (⟨"FP", "2", "2".toList⟩ : TOIRow) ∈
        [(⟨"CP", "1", "1".toList⟩ : TOIRow), ⟨"FP", "2", "2".toList⟩, ⟨"KP", "3", "3".toList⟩] ∧
    (⟨"FP", "2", "2".toList⟩ : TOIRow).tfopwgDisposition = "FP" ∧
    (⟨"FP", "2", "2".toList⟩ : TOIRow) ∉
        filter_positive_toi_df
          [⟨"CP", "1", "1".toList⟩, ⟨"FP", "2", "2".toList⟩, ⟨"KP", "3", "3".toList⟩] := by
  refine ⟨(C8_filter_subsequence _).1, by decide, rfl, ?_⟩
  exact (C8_filter_subsequence _).2.2.2.1 _ (by decide) rfl

/-- Claim C9: the catalog filter is idempotent — filtering an already-filtered
table returns the same table. -/
theorem C9_filter_idempotent (toi_df : List TOIRow) :
    filter_positive_toi_df (filter_positive_toi_df toi_df) =
      filter_positive_toi_df toi_df := by
  simp [filter_positive_toi_df, List.filter_filter]

/-- Counterexample to claim C3: the encoding step does not fail on a 17-character
target id; `rjust` leaves the overlong id unchanged and an ordinary identifier
(with five target-path groups) is returned instead of an
`IdentifierTooLongError`. -/
theorem C3_counterexample :
    generate_uri "12345678901234567".toList "1".toList =
      ("mast:HLSP/tess-spoc/s0001/target/1234/5678/9012/3456/7/" ++
        "hlsp_tess-spoc_tess_phot_12345678901234567-s0001_tess_v1_lc.fits").toList := by
  decide

/-- Amended claim C3: the encoding step raises no error for an overlong target
id; it never truncates: a target id of 16 or more characters is left unpadded
and appears verbatim inside the produced identifier. -/
theorem C3_amended (tic sector : List Char) (h : 16 ≤ tic.length) :
    rjust tic 16 '0' = tic ∧
    ∃ pre suf, generate_uri tic sector = pre ++ tic ++ suf := by
  have hpad : rjust tic 16 '0' = tic := by
    simp [rjust, Nat.sub_eq_zero_of_le h]
  refine ⟨hpad, ?_⟩
  refine ⟨"mast:HLSP/tess-spoc/".toList ++ ('s' :: rjust sector 4 '0') ++
      "/target/".toList ++
      joinSlash
        ((List.range' 0 ((tic.length + 3) / 4) 4).map (fun i => (tic.drop i).take 4)) ++
      "/hlsp_tess-spoc_tess_phot_".toList,
    ['-'] ++ ('s' :: rjust sector 4 '0') ++ "_tess_v1_lc.fits".toList, ?_⟩
  simp [generate_uri, hpad, List.append_assoc]

/-- Witness for the amended claim C3 at the 17-character target id
"12345678901234567". -/
theorem C3_amended_witness :
    16 ≤ "12345678901234567".toList.length ∧
    (rjust "12345678901234567".toList 16 '0' = "12345678901234567".toList ∧
      ∃ pre suf, generate_uri "12345678901234567".toList "1".toList =
        pre ++ "12345678901234567".toList ++ suf) :=
  ⟨by decide, C3_amended "12345678901234567".toList "1".toList (by decide)⟩

/-- Counterexample to claim C4: the encoding step does not fail on the epoch
string "10000" (epoch 10000 ≥ 10000); `rjust` leaves it unchanged and an
ordinary identifier with token `s10000` is returned instead of an
`EpochOutOfRangeError`. -/
theorem C4_counterexample :
    generate_uri "12345678".toList "10000".toList =
      ("mast:HLSP/tess-spoc/s10000/target/0000/0000/1234/5678/" ++
        "hlsp_tess-spoc_tess_phot_0000000012345678-s10000_tess_v1_lc.fits").toList := by
  decide

/-- Amended claim C4: the encoding step formats the epoch as the literal 's'
followed by the epoch string left-padded with '0' to 4 characters (that token
appears in both template positions), and it raises no error for a too-long
epoch: an epoch string of 4 or more characters is passed through unpadded and
untruncated. -/
theorem C4_amended (tic sector : List Char) :
    (∃ pre mid suf, generate_uri tic sector =
        pre ++ ('s' :: rjust sector 4 '0') ++ mid ++ ('s' :: rjust sector 4 '0') ++ suf) ∧
    (4 ≤ sector.length → rjust sector 4 '0' = sector) := by
  constructor
  · refine ⟨"mast:HLSP/tess-spoc/".toList,
      "/target/".toList ++
        joinSlash
          ((List.range' 0 (((rjust tic 16 '0').length + 3) / 4) 4).map
            (fun i => ((rjust tic 16 '0').drop i).take 4)) ++
        "/hlsp_tess-spoc_tess_phot_".toList ++ rjust tic 16 '0' ++ ['-'],
      "_tess_v1_lc.fits".toList, ?_⟩
    simp [generate_uri, List.append_assoc]
  · intro h
    simp [rjust, Nat.sub_eq_zero_of_le h]

/-- Witness for the amended claim C4 at the 5-character epoch string "10000". -/
theorem C4_amended_witness :
    (∃ pre mid suf, generate_uri "12345678".toList "10000".toList =
        pre ++ ('s' :: rjust "10000".toList 4 '0') ++ mid ++
          ('s' :: rjust "10000".toList 4 '0') ++ suf) ∧
    4 ≤ "10000".toList.length ∧ rjust "10000".toList 4 '0' = "10000".toList :=
  ⟨(C4_amended "12345678".toList "10000".toList).1, by decide,
    (C4_amended "12345678".toList "10000".toList).2 (by decide)⟩

/-! Helper lemmas about `parse_py_int`, `keepSectors` and the dictionary fold. -/

/-- A decimal digit is not whitespace. -/
theorem digit_not_ws (c : Char) (h : c.isDigit = true) : c.isWhitespace = false := by
  by_contra hw
  rw [Bool.not_eq_false] at hw
  simp only [Char.isWhitespace, Bool.or_eq_true, decide_eq_true_eq] at hw
  rcases hw with ((rfl | rfl) | rfl) | rfl <;> exact absurd h (by decide)

/-- `dropWhile isWhitespace` fixes an all-digit string. -/
theorem dropWhile_ws_of_digits (l : List Char) (h : ∀ c ∈ l, c.isDigit = true) :
    l.dropWhile Char.isWhitespace = l := by
  cases l with
  | nil => rfl
  | cons c rest =>
    rw [List.dropWhile_cons]
    simp [digit_not_ws c (h c (by simp))]

/-- Whitespace-stripping fixes an all-digit string. -/
theorem stripPyWS_digits (p : List Char) (h : p.all Char.isDigit = true) :
    stripPyWS p = p := by
  have h' : ∀ c ∈ p, c.isDigit = true := by simpa [List.all_eq_true] using h
  unfold stripPyWS
  rw [dropWhile_ws_of_digits p h',
    dropWhile_ws_of_digits p.reverse (fun c hc => h' c (List.mem_reverse.mp hc)),
    List.reverse_reverse]

/-- Python `int` succeeds on every non-empty all-digit token. -/
theorem parse_py_int_digits (p : List Char) (hne : p ≠ [])
    (hd : p.all Char.isDigit = true) :
    parse_py_int p = some (digitsVal p : Int) := by
  cases p with
  | nil => exact absurd rfl hne
  | cons c ds =>
    have hc : c.isDigit = true := by simp [List.all_cons] at hd; exact hd.1
    have hplus : c ≠ '+' := by rintro rfl; exact absurd hc (by decide)
    have hminus : c ≠ '-' := by rintro rfl; exact absurd hc (by decide)
    unfold parse_py_int
    rw [stripPyWS_digits _ hd]
    simp [hplus, hminus, hd]

/-- Every string piece kept by `keepSectors` parses to a considered sector. -/
theorem keepSectors_sound : ∀ ps fs, keepSectors ps = some fs →
    ∀ p ∈ fs, ∃ n, parse_py_int p = some n ∧ CONSIDERED_SECTORS n = true := by
  intro ps
  induction ps with
  | nil =>
    intro fs h p hp
    simp only [keepSectors] at h
    cases h
    simp at hp
  | cons q qs ih =>
    intro fs h p hp
    simp only [keepSectors, Option.bind_eq_some, Option.map_eq_some'] at h
    obtain ⟨n, hn, rest, hrest, hfs⟩ := h
    by_cases hc : CONSIDERED_SECTORS n = true
    · rw [if_pos hc] at hfs
      rcases (by simpa [← hfs] using hp : p = q ∨ p ∈ rest) with rfl | hmem
      · exact ⟨n, hn, hc⟩
      · exact ih rest hrest p hmem
    · rw [if_neg hc] at hfs
      exact ih rest hrest p (hfs ▸ hp)

/-- `keepSectors` fails as soon as one piece fails to parse. -/
theorem keepSectors_fails : ∀ ps p, p ∈ ps → parse_py_int p = none →
    keepSectors ps = none := by
  intro ps
  induction ps with
  | nil => intro p hp; simp at hp
  | cons q qs ih =>
    intro p hp hnone
    rcases List.mem_cons.mp hp with rfl | hmem
    · simp [keepSectors, hnone]
    · cases hq : parse_py_int q with
      | none => simp [keepSectors, hq]
      | some n => simp [keepSectors, hq, ih p hmem hnone]

/-- `keepSectors` succeeds when every piece parses. -/
theorem keepSectors_total : ∀ ps, (∀ p ∈ ps, ∃ n, parse_py_int p = some n) →
    ∃ fs, keepSectors ps = some fs := by
  intro ps
  induction ps with
  | nil => intro _; exact ⟨[], rfl⟩
  | cons q qs ih =>
    intro h
    obtain ⟨n, hn⟩ := h q (by simp)
    obtain ⟨rest, hrest⟩ := ih (fun p hp => h p (by simp [hp]))
    exact ⟨if CONSIDERED_SECTORS n then q :: rest else rest, by
      simp [keepSectors, hn, hrest]⟩

/-- Membership after a Python-style dict update. -/
theorem mem_updateAssoc : ∀ (m : List (String × List (List Char))) k v e,
    e ∈ updateAssoc m k v → e ∈ m ∨ e = (k, v) := by
  intro m
  induction m with
  | nil => intro k v e he; simp [updateAssoc] at he; simp [he]
  | cons kv rest ih =>
    intro k v e he
    obtain ⟨k', v'⟩ := kv
    by_cases hk : k' = k
    · rw [updateAssoc, if_pos hk] at he
      rcases List.mem_cons.mp he with rfl | hmem
      · exact Or.inr rfl
      · exact Or.inl (List.mem_cons_of_mem _ hmem)
    · rw [updateAssoc, if_neg hk] at he
      rcases List.mem_cons.mp he with rfl | hmem
      · exact Or.inl (List.mem_cons_self _ _)
      · rcases ih k v e hmem with h | h
        · exact Or.inl (List.mem_cons_of_mem _ h)
        · exact Or.inr h

/-- Any property established by each update step holds of every entry of the
dictionary built by `get_tic_to_sectors_aux`. -/
theorem gtts_aux_preserves (P : String × List (List Char) → Prop)
    (hstep : ∀ (row : TOIRow) fs, keepSectors (splitComma row.sectors) = some fs →
        fs ≠ [] → P (row.ticId, fs)) :
    ∀ rows acc m, get_tic_to_sectors_aux acc rows = some m →
      (∀ e ∈ acc, P e) → ∀ e ∈ m, P e := by
  intro rows
  induction rows with
  | nil =>
    intro acc m h hacc e he
    simp only [get_tic_to_sectors_aux] at h
    cases h
    exact hacc e he
  | cons row rest ih =>
    intro acc m h hacc e he
    simp only [get_tic_to_sectors_aux, Option.bind_eq_some] at h
    obtain ⟨fs, hk, h⟩ := h
    by_cases hfs : fs = []
    · rw [if_pos hfs] at h
      exact ih acc m h hacc e he
    · rw [if_neg hfs] at h
      refine ih _ m h ?_ e he
      intro e' he'
      rcases mem_updateAssoc acc row.ticId fs e' he' with hmem | rfl
      · exact hacc e' hmem
      · exact hstep row fs hk hfs

/-- Claim C5: every sector string stored by `get_tic_to_sectors` parses to a
sector inside the configured valid range `CONSIDERED_SECTORS = range(1, 27)`;
in particular the row with sector list "1,30,5" resolves to exactly the
sector strings "1" and "5" (30 is excluded). -/
theorem C5_sectors_in_range :
    (∀ toi_df m, get_tic_to_sectors toi_df = some m →
      ∀ e ∈ m, ∀ p ∈ e.2, ∃ n, parse_py_int p = some n ∧ CONSIDERED_SECTORS n = true) ∧
    get_tic_to_sectors [⟨"CP", "t", "1,30,5".toList⟩] =
      some [("t", [['1'], ['5']])] := by
  constructor
  · intro toi_df m h e he p hp
    refine gtts_aux_preserves (fun e => ∀ p ∈ e.2, ∃ n,
        parse_py_int p = some n ∧ CONSIDERED_SECTORS n = true)
      ?_ toi_df [] m h (by simp) e he p hp
    intro row fs hk _ q hq
    exact keepSectors_sound _ fs hk q hq
  · decide

/-- Witness for C5: instantiating the invariant at the scenario row
"1,30,5" and the stored piece "5". -/
theorem C5_sectors_in_range_witness :
    get_tic_to_sectors [⟨"CP", "t", "1,30,5".toList⟩] =
      some [("t", [['1'], ['5']])] ∧
    (∃ n, parse_py_int ['5'] = some n ∧ CONSIDERED_SECTORS n = true) :=
  ⟨by decide,
    (C5_sectors_in_range).1 [⟨"CP", "t", "1,30,5".toList⟩] [("t", [['1'], ['5']])]
      (by decide) ("t", [['1'], ['5']]) (by decide) ['5'] (by decide)⟩

/-- Claim C6: the mapping built by `get_tic_to_sectors` never contains an entry
with an empty sector list; a row all of whose sectors are out of range
(e.g. "30,31") is omitted entirely. -/
theorem C6_no_empty_entries :
    (∀ toi_df m, get_tic_to_sectors toi_df = some m → ∀ e ∈ m, e.2 ≠ []) ∧
    get_tic_to_sectors [⟨"CP", "t", "30,31".toList⟩] = some [] := by
  constructor
  · intro toi_df m h e he
    exact gtts_aux_preserves (fun e => e.2 ≠ [])
      (fun _ _ _ hfs => hfs) toi_df [] m h (by simp) e he
  · decide

/-- Witness for C6: the invariant instantiated at the row "1,30,5", whose
stored entry has the non-empty sector list ["1", "5"]. -/
theorem C6_no_empty_entries_witness :
    get_tic_to_sectors [⟨"CP", "t", "1,30,5".toList⟩] =
      some [("t", [['1'], ['5']])] ∧
    ([['1'], ['5']] : List (List Char)) ≠ [] :=
  ⟨by decide,
    (C6_no_empty_entries).1 [⟨"CP", "t", "1,30,5".toList⟩] [("t", [['1'], ['5']])]
      (by decide) ("t", [['1'], ['5']]) (by decide)⟩

/-- `get_tic_to_sectors_aux` succeeds when every piece of every row parses. -/
theorem gtts_aux_total : ∀ (rows : List TOIRow) acc,
    (∀ row ∈ rows, ∀ p ∈ splitComma row.sectors, p ≠ [] ∧ p.all Char.isDigit = true) →
    ∃ m, get_tic_to_sectors_aux acc rows = some m := by
  intro rows
  induction rows with
  | nil => intro acc _; exact ⟨acc, rfl⟩
  | cons row rest ih =>
    intro acc h
    obtain ⟨fs, hfs⟩ := keepSectors_total (splitComma row.sectors) (fun p hp => by
      obtain ⟨hne, hd⟩ := h row (by simp) p hp
      exact ⟨(digitsVal p : Int), parse_py_int_digits p hne hd⟩)
    obtain ⟨m, hm⟩ := ih (if fs = [] then acc else updateAssoc acc row.ticId fs)
      (fun r hr => h r (by simp [hr]))
    exact ⟨m, by simp only [get_tic_to_sectors_aux, hfs, Option.some_bind]; exact hm⟩

/-- `get_tic_to_sectors_aux` fails whenever some piece of some row fails to
parse. -/
theorem gtts_aux_fails : ∀ (rows : List TOIRow) acc (row : TOIRow) p,
    row ∈ rows → p ∈ splitComma row.sectors → parse_py_int p = none →
    get_tic_to_sectors_aux acc rows = none := by
  intro rows
  induction rows with
  | nil => intro acc row p hr; simp at hr
  | cons r rest ih =>
    intro acc row p hr hp hnone
    rcases List.mem_cons.mp hr with rfl | hmem
    · simp only [get_tic_to_sectors_aux, keepSectors_fails _ p hp hnone,
        Option.none_bind]
    · cases hk : keepSectors (splitComma r.sectors) with
      | none => simp only [get_tic_to_sectors_aux, hk, Option.none_bind]
      | some fs =>
        simp only [get_tic_to_sectors_aux, hk, Option.some_bind]
        exact ih _ row p hmem hp hnone

/-- Claim C7: sector-list parsing splits on ',', is total (no error) for every
comma-separated string of non-empty digit tokens, and any piece that fails to
parse as an integer makes the whole resolution step fail (the `ValueError`
propagates) rather than being coerced or skipped. -/
theorem C7_parse_total_and_fatal :
    (∀ toi_df : List TOIRow,
        (∀ row ∈ toi_df, ∀ p ∈ splitComma row.sectors,
            p ≠ [] ∧ p.all Char.isDigit = true) →
        ∃ m, get_tic_to_sectors toi_df = some m) ∧
    (∀ (toi_df : List TOIRow) (row : TOIRow) (p : List Char), row ∈ toi_df →
        p ∈ splitComma row.sectors → parse_py_int p = none →
        get_tic_to_sectors toi_df = none) :=
  ⟨fun toi_df h => gtts_aux_total toi_df [] h,
    fun toi_df row p hr hp hnone => gtts_aux_fails toi_df [] row p hr hp hnone⟩

/-- Witness for C7: the all-digit row "1,26" resolves without error, while the
row "1,x" (whose piece "x" fails to parse) makes resolution fail. -/
theorem C7_parse_total_and_fatal_witness :
    (∀ row ∈ [(⟨"CP", "t", "1,26".toList⟩ : TOIRow)],
        ∀ p ∈ splitComma row.sectors, p ≠ [] ∧ p.all Char.isDigit = true) ∧
    (∃ m, get_tic_to_sectors [(⟨"CP", "t", "1,26".toList⟩ : TOIRow)] = some m) ∧
    parse_py_int ['x'] = none ∧
    get_tic_to_sectors [(⟨"CP", "u", "1,x".toList⟩ : TOIRow)] = none :=
  ⟨by decide, (C7_parse_total_and_fatal).1 _ (by decide), by decide,
    (C7_parse_total_and_fatal).2 _ ⟨"CP", "u", "1,x".toList⟩ ['x']
      (by decide) (by decide) (by decide)⟩

/-- Looking up the key just stored by a Python-style dict update. -/
theorem lookupAssoc_updateAssoc_self :
    ∀ (m : List (String × List (List Char))) k v,
      lookupAssoc (updateAssoc m k v) k = some v := by
  intro m
  induction m with
  | nil => intro k v; simp [updateAssoc, lookupAssoc]
  | cons kv rest ih =>
    intro k v
    obtain ⟨k', v'⟩ := kv
    by_cases hk : k' = k
    · rw [updateAssoc, if_pos hk, lookupAssoc, if_pos rfl]
    · rw [updateAssoc, if_neg hk, lookupAssoc, if_neg hk]
      exact ih k v

/-- A Python-style dict update leaves other keys' lookups unchanged. -/
theorem lookupAssoc_updateAssoc_ne :
    ∀ (m : List (String × List (List Char))) k v k', k ≠ k' →
      lookupAssoc (updateAssoc m k v) k' = lookupAssoc m k' := by
  intro m
  induction m with
  | nil => intro k v k' hne; simp [updateAssoc, lookupAssoc, hne]
  | cons kv rest ih =>
    intro k v k' hne
    obtain ⟨k'', v''⟩ := kv
    by_cases hk : k'' = k
    · subst hk
      rw [updateAssoc, if_pos rfl, lookupAssoc, if_neg hne, lookupAssoc, if_neg hne]
    · rw [updateAssoc, if_neg hk]
      by_cases hk' : k'' = k'
      · rw [lookupAssoc, if_pos hk', lookupAssoc, if_pos hk']
      · rw [lookupAssoc, if_neg hk', lookupAssoc, if_neg hk']
        exact ih k v k' hne

/-- One `lnrStep` from an arbitrary accumulator factors through the step from
`none`. -/
theorem lnrStep_none_or (tic : String) (a : Option (List (List Char))) (row : TOIRow) :
    lnrStep tic a row = Option.or (lnrStep tic none row) a := by
  unfold lnrStep
  by_cases ht : row.ticId = tic
  · rw [if_pos ht, if_pos ht, Option.or_none]
  · rw [if_neg ht, if_neg ht, Option.none_or]

/-- The `lastNonemptyRetained` fold from an arbitrary seed factors through the
fold from `none`. -/
theorem lnr_fold_or : ∀ (rows : List TOIRow) (tic : String) a,
    rows.foldl (lnrStep tic) a = Option.or (rows.foldl (lnrStep tic) none) a := by
  intro rows
  induction rows with
  | nil => intro tic a; simp [Option.or]
  | cons row rest ih =>
    intro tic a
    rw [List.foldl_cons, List.foldl_cons, ih tic (lnrStep tic a row),
      ih tic (lnrStep tic none row), lnrStep_none_or tic a row, Option.or_assoc]

/-- The dictionary built by `get_tic_to_sectors_aux` maps each TIC ID to the
retained sectors of the last row that stored something for it, falling back to
the seed dictionary. -/
theorem gtts_aux_lookup : ∀ (rows : List TOIRow) acc m,
    get_tic_to_sectors_aux acc rows = some m →
    ∀ tic, lookupAssoc m tic =
      Option.or (rows.foldl (lnrStep tic) none) (lookupAssoc acc tic) := by
  intro rows
  induction rows with
  | nil =>
    intro acc m h tic
    simp only [get_tic_to_sectors_aux] at h
    cases h
    simp [Option.or]
  | cons row rest ih =>
    intro acc m h tic
    simp only [get_tic_to_sectors_aux, Option.bind_eq_some] at h
    obtain ⟨fs, hk, h⟩ := h
    rw [List.foldl_cons, lnr_fold_or rest tic (lnrStep tic none row), Option.or_assoc]
    have hstep : lookupAssoc (if fs = [] then acc else updateAssoc acc row.ticId fs) tic
        = Option.or (lnrStep tic none row) (lookupAssoc acc tic) := by
      unfold lnrStep
      by_cases ht : row.ticId = tic
      · rw [if_pos ht, hk, Option.some_bind, Option.or_none]
        by_cases hfs : fs = []
        · rw [if_pos hfs, if_pos hfs, Option.none_or]
        · rw [if_neg hfs, if_neg hfs, ← ht, lookupAssoc_updateAssoc_self, Option.or_some]
      · rw [if_neg ht, Option.none_or]
        by_cases hfs : fs = []
        · rw [if_pos hfs]
        · rw [if_neg hfs, lookupAssoc_updateAssoc_ne acc row.ticId fs tic ht]
    rw [ih _ m h tic, hstep]

/-- Counterexample to claim C10: with two rows for TIC "a" — sector lists "1"
then "30" — the produced mapping keeps the first row's retained sectors ["1"],
while the last row's retained sector list is empty; the mapping therefore does
not hold the epoch set derived from the last row. -/
theorem C10_counterexample :
    get_tic_to_sectors [⟨"CP", "a", "1".toList⟩, ⟨"CP", "a", "30".toList⟩] =
      some [("a", [['1']])] ∧
    keepSectors (splitComma "30".toList) = some [] := by
  constructor <;> decide

/-- Amended claim C10: the mapping's entry for a TIC ID is the retained sector
list of the last row for that TIC ID whose retained list is non-empty; a later
duplicate row overwrites (never merges with) the earlier entry only when it
retains at least one valid sector, and leaves the earlier entry unchanged
otherwise. -/
theorem C10_amended (toi_df : List TOIRow)
    (m : List (String × List (List Char)))
    (h : get_tic_to_sectors toi_df = some m) (tic : String) :
    lookupAssoc m tic = lastNonemptyRetained toi_df tic := by
  have := gtts_aux_lookup toi_df [] m h tic
  simpa [lastNonemptyRetained, lookupAssoc, Option.or_none] using this

/-! Helper lemmas for claim C2: occurrence counting and the URI normal form. -/

/-- `isPrefixOf` on `List Char` means: the second list extends the first. -/
theorem isPrefixOf_iff_exists : ∀ (p l : List Char),
    p.isPrefixOf l = true ↔ ∃ u, p ++ u = l := by
  intro p
  induction p with
  | nil => intro l; simp [List.isPrefixOf]
  | cons a p ih =>
    intro l
    cases l with
    | nil => simp [List.isPrefixOf]
    | cons b l' =>
      simp only [List.isPrefixOf, Bool.and_eq_true, beq_iff_eq, List.cons_append,
        List.cons.injEq]
      constructor
      · rintro ⟨rfl, h⟩
        obtain ⟨u, hu⟩ := (ih l').mp h
        exact ⟨u, rfl, hu⟩
      · rintro ⟨u, rfl, hu⟩
        exact ⟨rfl, (ih l').mpr ⟨u, hu⟩⟩

/-- An occurrence of `pat` at position `i` fixes the characters of `text` at
positions `i + k` for `k` inside `pat`. -/
theorem getElem?_of_occ (pat text : List Char) (i k : Nat)
    (h : pat.isPrefixOf (text.drop i) = true) (hk : k < pat.length) :
    text[i + k]? = pat[k]? := by
  obtain ⟨u, hu⟩ := (isPrefixOf_iff_exists pat (text.drop i)).mp h
  rw [← List.getElem?_drop, ← hu, List.getElem?_append_left hk]

/-- An occurrence of a non-empty `pat` at position `i` fits inside `text`. -/
theorem length_le_of_occ (pat text : List Char) (i : Nat) (hne : pat ≠ [])
    (h : pat.isPrefixOf (text.drop i) = true) :
    i + pat.length ≤ text.length := by
  obtain ⟨u, hu⟩ := (isPrefixOf_iff_exists pat (text.drop i)).mp h
  have hpos : 0 < pat.length := List.length_pos.mpr hne
  have := congrArg List.length hu
  simp only [List.length_append, List.length_drop] at this
  omega

/-- A character occurring exactly once in a list has a unique position. -/
theorem getElem?_unique_of_count_one : ∀ (l : List Char) (c : Char) (p q : Nat),
    l.count c = 1 → l[p]? = some c → l[q]? = some c → q = p := by
  intro l
  induction l with
  | nil => intro c p q _ hp; simp at hp
  | cons a l ih =>
    intro c p q hcount hp hq
    by_cases hac : a = c
    · subst hac
      have hnot : a ∉ l := by
        rw [List.count_cons_self] at hcount
        exact List.count_eq_zero.mp (by omega)
      cases p with
      | succ p' =>
        rw [List.getElem?_cons_succ] at hp
        exact absurd (List.getElem?_mem hp) hnot
      | zero =>
        cases q with
        | succ q' =>
          rw [List.getElem?_cons_succ] at hq
          exact absurd (List.getElem?_mem hq) hnot
        | zero => rfl
    · have hcount' : l.count c = 1 := by
        rw [List.count_cons] at hcount
        simpa [hac] using hcount
      cases p with
      | zero => rw [List.getElem?_cons_zero] at hp; exact absurd (Option.some.inj hp) hac
      | succ p' =>
        cases q with
        | zero => rw [List.getElem?_cons_zero] at hq; exact absurd (Option.some.inj hq) hac
        | succ q' =>
          rw [List.getElem?_cons_succ] at hp hq
          exact congrArg Nat.succ (ih c p' q' hcount' hp hq)

/-- Filtering a duplicate-free list whose unique satisfying element is `p`
yields exactly `[p]`. -/
theorem filter_eq_singleton_of_unique :
    ∀ (l : List Nat) (f : Nat → Bool) (p : Nat), l.Nodup → p ∈ l → f p = true →
      (∀ i ∈ l, f i = true → i = p) → l.filter f = [p] := by
  intro l
  induction l with
  | nil => intro f p _ hmem; simp at hmem
  | cons a l ih =>
    intro f p hnd hmem hp huniq
    rcases List.mem_cons.mp hmem with rfl | hmem'
    · rw [List.filter_cons_of_pos hp]
      have : l.filter f = [] := by
        rw [List.filter_eq_nil_iff]
        intro i hi hfi
        have : i = p := huniq i (by simp [hi]) hfi
        subst this
        exact (List.nodup_cons.mp hnd).1 hi
      rw [this]
    · have ha : ¬ f a = true := by
        intro hfa
        have : a = p := huniq a (by simp) hfa
        subst this
        exact (List.nodup_cons.mp hnd).1 hmem'
      rw [List.filter_cons_of_neg ha]
      exact ih f p (List.nodup_cons.mp hnd).2 hmem' hp
        (fun i hi hfi => huniq i (by simp [hi]) hfi)

/-- A pattern occurring at exactly one position occurs exactly once. -/
theorem countOccs_eq_one (pat text : List Char) (p : Nat)
    (hp : pat.isPrefixOf (text.drop p) = true) (hplt : p < text.length + 1)
    (huniq : ∀ i, pat.isPrefixOf (text.drop i) = true → i = p) :
    countOccs pat text = 1 := by
  unfold countOccs occList
  rw [filter_eq_singleton_of_unique _ _ p (List.nodup_range _)
    (List.mem_range.mpr hplt) hp (fun i _ hfi => huniq i hfi)]
  rfl

/-- A character that is not a digit does not occur in an all-digit string. -/
theorem count_zero_of_all_digits (l : List Char) (c : Char)
    (hl : l.all Char.isDigit = true) (hc : c.isDigit = false) : l.count c = 0 := by
  rw [List.count_eq_zero]
  intro hmem
  rw [List.all_eq_true] at hl
  simp [hl c hmem] at hc

/-- `all` restricts along sublists. -/
theorem all_sublist {l' l : List Char} (h : l'.Sublist l)
    (hl : l.all Char.isDigit = true) : l'.all Char.isDigit = true := by
  rw [List.all_eq_true] at hl ⊢
  exact fun c hc => hl c (h.mem hc)

/-- A character read from an all-digit string is a digit. -/
theorem getElem?_digit_of_all (l : List Char) (k : Nat) (c : Char)
    (hl : l.all Char.isDigit = true) (h : l[k]? = some c) : c.isDigit = true := by
  rw [List.all_eq_true] at hl
  exact hl c (List.getElem?_mem h)

/-- Reading past a known-length left factor of an append. -/
theorem getElem?_append_offset (a b : List Char) (n k : Nat) (h : a.length = n) :
    (a ++ b)[n + k]? = b[k]? := by
  rw [List.getElem?_append_right (by omega)]
  congr 1
  omega

/-- `rjust` pads to exactly the requested width when the input fits. -/
theorem rjust_length (s : List Char) (w : Nat) (c : Char) (h : s.length ≤ w) :
    (rjust s w c).length = w := by
  simp only [rjust, List.length_append, List.length_replicate]
  omega

/-- `rjust` with fill '0' preserves all-digitness. -/
theorem rjust_all_digits (s : List Char) (w : Nat)
    (h : s.all Char.isDigit = true) : (rjust s w '0').all Char.isDigit = true := by
  rw [List.all_eq_true] at h ⊢
  intro c hc
  rcases List.mem_append.mp hc with hrep | hmem
  · rw [List.eq_of_mem_replicate hrep]; decide
  · exact h c hmem

/-- Expansion of the slice-and-join step for a 16-character padded TIC ID. -/
theorem target_expand (T : List Char) (h : T.length = 16) :
    joinSlash ((List.range' 0 ((T.length + 3) / 4) 4).map (fun i => (T.drop i).take 4)) =
      T.take 4 ++ ('/' :: ((T.drop 4).take 4 ++ ('/' :: ((T.drop 8).take 4 ++
        ('/' :: (T.drop 12).take 4))))) := by
  rw [h]
  rfl

/-- The identifier produced by `generate_uri` in right-associated normal form. -/
theorem generate_uri_eq_uriOf (t s : List Char) (htl : t.length ≤ 16) :
    generate_uri t s = uriOf (rjust t 16 '0') (rjust s 4 '0') := by
  have h16 := rjust_length t 16 '0' htl
  simp only [generate_uri, uriOf, fnameCore, target_expand _ h16]
  simp [List.append_assoc]

/-- Length of the trailing filename. -/
theorem fname_len (T D : List Char) (hT : T.length = 16) (hD : D.length = 4) :
    (fnameCore T D).length = 63 := by
  simp [fnameCore, hT, hD]

/-- Characters of the filename inside the fixed leading literal. -/
theorem fname_lt25 (T D : List Char) (j : Nat) (hj : j < 25) :
    (fnameCore T D)[j]? = ("hlsp_tess-spoc_tess_phot_".toList)[j]? := by
  unfold fnameCore
  exact List.getElem?_append_left (by simpa using hj)

/-- Characters of the filename inside the padded TIC ID. -/
theorem fname_T (T D : List Char) (hT : T.length = 16) (k : Nat) (hk : k < 16) :
    (fnameCore T D)[25 + k]? = T[k]? := by
  unfold fnameCore
  rw [getElem?_append_offset _ _ 25 k (by decide)]
  exact List.getElem?_append_left (by omega)

/-- The filename's character at position 41 is the dash. -/
theorem fname_at41 (T D : List Char) (hT : T.length = 16) :
    (fnameCore T D)[41]? = some '-' := by
  unfold fnameCore
  have h := getElem?_append_offset "hlsp_tess-spoc_tess_phot_".toList
    (T ++ ('-' :: 's' :: (D ++ "_tess_v1_lc.fits".toList))) 25 16 (by decide)
  rw [show (25 + 16 : Nat) = 41 from rfl] at h
  rw [h, getElem?_append_offset T _ 16 0 hT]
  rfl

/-- The filename's character at position 42 is the epoch token's 's'. -/
theorem fname_at42 (T D : List Char) (hT : T.length = 16) :
    (fnameCore T D)[42]? = some 's' := by
  unfold fnameCore
  have h := getElem?_append_offset "hlsp_tess-spoc_tess_phot_".toList
    (T ++ ('-' :: 's' :: (D ++ "_tess_v1_lc.fits".toList))) 25 17 (by decide)
  rw [show (25 + 17 : Nat) = 42 from rfl] at h
  rw [h, getElem?_append_offset T _ 16 1 hT]
  simp

/-- Characters of the filename inside the padded sector digits. -/
theorem fname_D (T D : List Char) (hT : T.length = 16) (hD : D.length = 4)
    (k : Nat) (hk : k < 4) :
    (fnameCore T D)[43 + k]? = D[k]? := by
  unfold fnameCore
  have h := getElem?_append_offset "hlsp_tess-spoc_tess_phot_".toList
    (T ++ ('-' :: 's' :: (D ++ "_tess_v1_lc.fits".toList))) 25 (18 + k) (by decide)
  rw [show 25 + (18 + k) = 43 + k from by omega] at h
  rw [h, show (18 + k : Nat) = 16 + (2 + k) from by omega,
    getElem?_append_offset T _ 16 (2 + k) hT,
    show ('-' :: 's' :: (D ++ "_tess_v1_lc.fits".toList)) =
      ['-', 's'] ++ (D ++ "_tess_v1_lc.fits".toList) from rfl,
    getElem?_append_offset ['-', 's'] _ 2 k rfl]
  exact List.getElem?_append_left (by omega)

/-- Characters of the filename inside the fixed trailing literal. -/
theorem fname_lit2 (T D : List Char) (hT : T.length = 16) (hD : D.length = 4)
    (k : Nat) :
    (fnameCore T D)[47 + k]? = ("_tess_v1_lc.fits".toList)[k]? := by
  unfold fnameCore
  have h := getElem?_append_offset "hlsp_tess-spoc_tess_phot_".toList
    (T ++ ('-' :: 's' :: (D ++ "_tess_v1_lc.fits".toList))) 25 (22 + k) (by decide)
  rw [show 25 + (22 + k) = 47 + k from by omega] at h
  rw [h, show (22 + k : Nat) = 16 + (6 + k) from by omega,
    getElem?_append_offset T _ 16 (6 + k) hT,
    show ('-' :: 's' :: (D ++ "_tess_v1_lc.fits".toList)) =
      ['-', 's'] ++ (D ++ "_tess_v1_lc.fits".toList) from rfl,
    show (6 + k : Nat) = 2 + (4 + k) from by omega,
    getElem?_append_offset ['-', 's'] _ 2 (4 + k) rfl,
    getElem?_append_offset D _ 4 k hD]

/-- The filename's character at position 47 is the underscore after the
epoch token. -/
theorem fname_at47 (T D : List Char) (hT : T.length = 16) (hD : D.length = 4) :
    (fnameCore T D)[47]? = some '_' := by
  have h := fname_lit2 T D hT hD 0
  rw [show (47 + 0 : Nat) = 47 from rfl] at h
  rw [h]
  rfl

/-- The padded TIC ID occurs exactly once in the trailing filename. -/
theorem countOccs_tic_fname (T D : List Char) (hT : T.length = 16)
    (hTd : T.all Char.isDigit = true) (hD : D.length = 4) :
    countOccs T (fnameCore T D) = 1 := by
  have hTne : T ≠ [] := List.length_pos.mp (by omega)
  have hlen := fname_len T D hT hD
  refine countOccs_eq_one T (fnameCore T D) 25 ?_ (by omega) ?_
  · have hdrop : (fnameCore T D).drop 25 =
        T ++ ('-' :: 's' :: (D ++ "_tess_v1_lc.fits".toList)) := by
      unfold fnameCore
      exact List.drop_left' (by decide)
    rw [hdrop]
    exact (isPrefixOf_iff_exists _ _).mpr ⟨_, rfl⟩
  · intro i hi
    have hub : i + 16 ≤ 63 := by
      have := length_le_of_occ T (fnameCore T D) i hTne hi
      omega
    rcases Nat.lt_or_ge i 25 with hlt | hge
    · exfalso
      have h0 : (fnameCore T D)[i]? = T[0]? := by
        have := getElem?_of_occ T (fnameCore T D) i 0 hi (by omega)
        simpa using this
      have hT0 : T[0]? = some (T.headI) := by
        cases T with
        | nil => simp at hT
        | cons a l => simp
      have hdig : (T.headI).isDigit = true :=
        getElem?_digit_of_all T 0 T.headI hTd hT0
      have hlit : (fnameCore T D)[i]? = ("hlsp_tess-spoc_tess_phot_".toList)[i]? :=
        fname_lt25 T D i hlt
      have : ("hlsp_tess-spoc_tess_phot_".toList)[i]? = some T.headI := by
        rw [← hlit, h0, hT0]
      have hmem := List.getElem?_mem this
      have : (T.headI).isDigit = false := by
        have hall : ∀ c ∈ "hlsp_tess-spoc_tess_phot_".toList, c.isDigit = false := by decide
        exact hall _ hmem
      simp [this] at hdig
    · rcases Nat.lt_or_ge i 26 with h26 | hge26
      · omega
      · exfalso
        rcases Nat.lt_or_ge i 42 with h42 | hge42
        · -- 26 ≤ i ≤ 41: the dash at 41 falls inside the match
          have hk : 41 - i < 16 := by omega
          have h1 : (fnameCore T D)[i + (41 - i)]? = T[41 - i]? :=
            getElem?_of_occ T (fnameCore T D) i (41 - i) hi (by omega)
          rw [show i + (41 - i) = 41 from by omega, fname_at41 T D hT] at h1
          have := getElem?_digit_of_all T (41 - i) '-' hTd h1.symm
          simp at this
        · -- 42 ≤ i ≤ 47: the underscore at 47 falls inside the match
          have hk : 47 - i < 16 := by omega
          have h1 : (fnameCore T D)[i + (47 - i)]? = T[47 - i]? :=
            getElem?_of_occ T (fnameCore T D) i (47 - i) hi (by omega)
          rw [show i + (47 - i) = 47 from by omega, fname_at47 T D hT hD] at h1
          have := getElem?_digit_of_all T (47 - i) '_' hTd h1.symm
          simp at this

/-- The epoch token occurs exactly once in the trailing filename. -/
theorem countOccs_token_fname (T D : List Char) (hT : T.length = 16)
    (hTd : T.all Char.isDigit = true) (hD : D.length = 4)
    (hDd : D.all Char.isDigit = true) :
    countOccs ('s' :: D) (fnameCore T D) = 1 := by
  have hlen := fname_len T D hT hD
  have hD0 : D[0]? = some (D.headI) := by
    cases D with
    | nil => simp at hD
    | cons a l => simp
  have hD0d : (D.headI).isDigit = true := getElem?_digit_of_all D 0 D.headI hDd hD0
  refine countOccs_eq_one ('s' :: D) (fnameCore T D) 42 ?_ (by omega) ?_
  · have hdecomp : fnameCore T D =
        ("hlsp_tess-spoc_tess_phot_".toList ++ (T ++ ['-'])) ++
          ('s' :: (D ++ "_tess_v1_lc.fits".toList)) := by
      simp [fnameCore]
    have hdrop : (fnameCore T D).drop 42 = 's' :: (D ++ "_tess_v1_lc.fits".toList) := by
      rw [hdecomp]
      exact List.drop_left' (by simp [hT])
    rw [hdrop]
    exact (isPrefixOf_iff_exists _ _).mpr ⟨"_tess_v1_lc.fits".toList, by simp⟩
  · intro i hi
    have hub : i + 5 ≤ 63 := by
      have := length_le_of_occ ('s' :: D) (fnameCore T D) i (by simp) hi
      simp [hD] at this
      omega
    have hs0 : (fnameCore T D)[i]? = some 's' := by
      have := getElem?_of_occ ('s' :: D) (fnameCore T D) i 0 hi (by simp)
      simpa using this
    have hs1 : (fnameCore T D)[i + 1]? = D[0]? := by
      have := getElem?_of_occ ('s' :: D) (fnameCore T D) i 1 hi (by simp [hD])
      simpa using this
    rcases Nat.lt_or_ge i 25 with hlt | hge
    · exfalso
      have hfi : ("hlsp_tess-spoc_tess_phot_".toList)[i]? = some 's' := by
        rw [← fname_lt25 T D i hlt]; exact hs0
      have hsmall : i < 24 := by
        have hfact : ∀ j, j < 25 →
            ("hlsp_tess-spoc_tess_phot_".toList)[j]? = some 's' → j < 24 := by decide
        exact hfact i hlt hfi
      have hfi1 : ("hlsp_tess-spoc_tess_phot_".toList)[i + 1]? = some D.headI := by
        rw [← fname_lt25 T D (i + 1) (by omega), hs1, hD0]
      have hpair : ∀ j, j < 24 →
          ("hlsp_tess-spoc_tess_phot_".toList)[j]? = some 's' →
          ((("hlsp_tess-spoc_tess_phot_".toList)[j + 1]?).getD '0').isDigit = false := by
        decide
      have := hpair i hsmall hfi
      rw [hfi1] at this
      simp [Option.getD] at this
      simp [this] at hD0d
    · rcases Nat.lt_or_ge i 41 with h41 | hge41
      · -- 25 ≤ i ≤ 40: inside the padded TIC ID, all digits
        exfalso
        have h1 : (fnameCore T D)[25 + (i - 25)]? = T[i - 25]? :=
          fname_T T D hT (i - 25) (by omega)
        rw [show 25 + (i - 25) = i from by omega] at h1
        have := getElem?_digit_of_all T (i - 25) 's' hTd (by rw [← h1]; exact hs0)
        simp at this
      · rcases Nat.eq_or_lt_of_le hge41 with h41e | hgt41
        · -- i = 41: the dash
          exfalso
          rw [← h41e, fname_at41 T D hT] at hs0
          simp at hs0
        · rcases Nat.lt_or_ge i 43 with h43 | hge43
          · omega
          · rcases Nat.lt_or_ge i 47 with h47 | hge47
            · -- 43 ≤ i ≤ 46: inside the sector digits
              exfalso
              have h1 : (fnameCore T D)[43 + (i - 43)]? = D[i - 43]? :=
                fname_D T D hT hD (i - 43) (by omega)
              rw [show 43 + (i - 43) = i from by omega] at h1
              have := getElem?_digit_of_all D (i - 43) 's' hDd (by rw [← h1]; exact hs0)
              simp at this
            · -- 47 ≤ i ≤ 58: inside the trailing literal
              exfalso
              have h1 : (fnameCore T D)[47 + (i - 47)]? =
                  ("_tess_v1_lc.fits".toList)[i - 47]? := fname_lit2 T D hT hD (i - 47)
              rw [show 47 + (i - 47) = i from by omega] at h1
              have hfi : ("_tess_v1_lc.fits".toList)[i - 47]? = some 's' := by
                rw [← h1]; exact hs0
              have hksmall : i - 47 < 15 := by omega
              have h2 : (fnameCore T D)[47 + (i - 47 + 1)]? =
                  ("_tess_v1_lc.fits".toList)[i - 47 + 1]? := fname_lit2 T D hT hD (i - 47 + 1)
              rw [show 47 + (i - 47 + 1) = i + 1 from by omega] at h2
              have hfi1 : ("_tess_v1_lc.fits".toList)[i - 47 + 1]? = some D.headI := by
                rw [← h2, hs1, hD0]
              have hpair : ∀ k, k < 15 →
                  ("_tess_v1_lc.fits".toList)[k]? = some 's' →
                  ((("_tess_v1_lc.fits".toList)[k + 1]?).getD '0').isDigit = false := by
                decide
              have := hpair (i - 47) hksmall hfi
              rw [hfi1] at this
              simp [Option.getD] at this
              simp [this] at hD0d

/-- The 4-character groups cut from the padded TIC ID have length 4. -/
theorem take_len4 (T : List Char) (hT : T.length = 16) (n : Nat) (hn : n + 4 ≤ 16) :
    ((T.drop n).take 4).length = 4 := by
  rw [List.length_take, List.length_drop, hT]
  omega

/-- Length of the produced identifier. -/
theorem uriOf_len (T D : List Char) (hT : T.length = 16) (hD : D.length = 4) :
    (uriOf T D).length = 116 := by
  have h0 : (T.take 4).length = 4 := by rw [List.length_take, hT]; omega
  have h4 := take_len4 T hT 4 (by omega)
  have h8 := take_len4 T hT 8 (by omega)
  have h12 := take_len4 T hT 12 (by omega)
  have hf := fname_len T D hT hD
  simp only [uriOf, List.length_append, List.length_cons, h0, h4, h8, h12, hf, hD]
  decide

/-- The identifier splits at position 25 right before "/target/". -/
theorem uriOf_drop25 (T D : List Char) (hD : D.length = 4) :
    (uriOf T D).drop 25 = "/target/".toList ++
      (T.take 4 ++ ('/' :: ((T.drop 4).take 4 ++ ('/' :: ((T.drop 8).take 4 ++
        ('/' :: ((T.drop 12).take 4 ++ ('/' :: fnameCore T D)))))))) := by
  have hre : uriOf T D = ("mast:HLSP/tess-spoc/".toList ++ ('s' :: D)) ++
      ("/target/".toList ++
        (T.take 4 ++ ('/' :: ((T.drop 4).take 4 ++ ('/' :: ((T.drop 8).take 4 ++
          ('/' :: ((T.drop 12).take 4 ++ ('/' :: fnameCore T D))))))))) := by
    simp [uriOf, List.append_assoc]
  rw [hre]
  refine List.drop_left' ?_
  simp only [List.length_append, List.length_cons, hD]
  decide

/-- 'g' occurs exactly once in the produced identifier. -/
theorem count_g_uriOf (T D : List Char) (hTd : T.all Char.isDigit = true)
    (hDd : D.all Char.isDigit = true) : (uriOf T D).count 'g' = 1 := by
  have hgT : T.count 'g' = 0 := count_zero_of_all_digits T 'g' hTd (by decide)
  have hgD : D.count 'g' = 0 := count_zero_of_all_digits D 'g' hDd (by decide)
  have hg0 : (T.take 4).count 'g' = 0 :=
    Nat.le_zero.mp (hgT ▸ (List.take_sublist 4 T).count_le 'g')
  have hgg : ∀ n, ((T.drop n).take 4).count 'g' = 0 := fun n =>
    Nat.le_zero.mp (hgT ▸ ((List.take_sublist 4 (T.drop n)).trans
      (List.drop_sublist n T)).count_le 'g')
  have c1 : ("mast:HLSP/tess-spoc/".toList).count 'g' = 0 := by decide
  have c2 : ("/target/".toList).count 'g' = 1 := by decide
  have c3 : ("hlsp_tess-spoc_tess_phot_".toList).count 'g' = 0 := by decide
  have c4 : ("_tess_v1_lc.fits".toList).count 'g' = 0 := by decide
  simp only [uriOf, fnameCore, List.count_append, List.count_cons, c1, c2, c3, c4,
    hgT, hgD, hg0, hgg]
  decide

/-- The identifier's character at position 29 is the 'g' of "/target/". -/
theorem uriOf_at29 (T D : List Char) (hD : D.length = 4) :
    (uriOf T D)[29]? = some 'g' := by
  rw [show (29 : Nat) = 25 + 4 from rfl, ← List.getElem?_drop, uriOf_drop25 T D hD]
  exact (List.getElem?_append_left (by decide)).trans (by decide)

/-- "/target/" occurs exactly once in the produced identifier. -/
theorem countOccs_target_uriOf (T D : List Char) (hT : T.length = 16)
    (hTd : T.all Char.isDigit = true) (hD : D.length = 4)
    (hDd : D.all Char.isDigit = true) :
    countOccs "/target/".toList (uriOf T D) = 1 := by
  have hUlen := uriOf_len T D hT hD
  refine countOccs_eq_one "/target/".toList (uriOf T D) 25 ?_ (by omega) ?_
  · rw [uriOf_drop25 T D hD]
    exact (isPrefixOf_iff_exists _ _).mpr ⟨_, rfl⟩
  · intro i hi
    have h4 : (uriOf T D)[i + 4]? = some 'g' := by
      have := getElem?_of_occ "/target/".toList (uriOf T D) i 4 hi (by decide)
      rw [this]
      decide
    have := getElem?_unique_of_count_one (uriOf T D) 'g' 29 (i + 4)
      (count_g_uriOf T D hTd hDd) (uriOf_at29 T D hD) h4
    omega

/-- Round-trip: decoding the produced identifier re-extracts the padded TIC ID
and the epoch token verbatim. -/
theorem decode_uriOf (T D : List Char) (hT : T.length = 16) (hD : D.length = 4) :
    decode_identifier (uriOf T D) = some (T, 's' :: D) := by
  have h0 : (T.take 4).length = 4 := by rw [List.length_take, hT]; omega
  have h4 := take_len4 T hT 4 (by omega)
  have h8 := take_len4 T hT 8 (by omega)
  have h12 := take_len4 T hT 12 (by omega)
  have hpre1 : ("mast:HLSP/tess-spoc/".toList).isPrefixOf (uriOf T D) = true :=
    (isPrefixOf_iff_exists _ _).mpr ⟨_, rfl⟩
  have htok : ((uriOf T D).drop 20).take 5 = 's' :: D := by
    unfold uriOf
    rw [List.drop_left' (by decide), ← List.cons_append,
      List.take_left' (by simp [hD])]
  have hpre2 : ("/target/".toList).isPrefixOf ((uriOf T D).drop 25) = true := by
    rw [uriOf_drop25 T D hD]
    exact (isPrefixOf_iff_exists _ _).mpr ⟨_, rfl⟩
  have hbody : ((uriOf T D).drop 25).drop 28 = fnameCore T D := by
    rw [uriOf_drop25 T D hD]
    have hfront : "/target/".toList ++
        (T.take 4 ++ ('/' :: ((T.drop 4).take 4 ++ ('/' :: ((T.drop 8).take 4 ++
          ('/' :: ((T.drop 12).take 4 ++ ('/' :: fnameCore T D)))))))) =
        ("/target/".toList ++ (T.take 4 ++ ('/' :: ((T.drop 4).take 4 ++
          ('/' :: ((T.drop 8).take 4 ++ ('/' :: ((T.drop 12).take 4 ++ ['/'])))))))) ++
        fnameCore T D := by
      simp [List.append_assoc]
    rw [hfront]
    refine List.drop_left' ?_
    simp only [List.length_append, List.length_cons, List.length_nil, h0, h4, h8, h12]
    decide
  have hpre3 : ("hlsp_tess-spoc_tess_phot_".toList).isPrefixOf (fnameCore T D) = true :=
    (isPrefixOf_iff_exists _ _).mpr ⟨_, rfl⟩
  have hdrop41 : (fnameCore T D).drop 41 =
      '-' :: (('s' :: D) ++ "_tess_v1_lc.fits".toList) := by
    have hdecomp : fnameCore T D =
        ("hlsp_tess-spoc_tess_phot_".toList ++ T) ++
          ('-' :: (('s' :: D) ++ "_tess_v1_lc.fits".toList)) := by
      simp [fnameCore]
    rw [hdecomp]
    refine List.drop_left' ?_
    simp only [List.length_append, hT]
    decide
  have hdrop25f : ((fnameCore T D).drop 25).take 16 = T := by
    have : (fnameCore T D).drop 25 =
        T ++ ('-' :: 's' :: (D ++ "_tess_v1_lc.fits".toList)) := by
      unfold fnameCore
      exact List.drop_left' (by decide)
    rw [this, List.take_left' hT]
  simp only [decode_identifier, hpre1, htok, hpre2, hbody, hpre3, hdrop41,
    hdrop25f, if_true]

/-- Claim C2: for every numeric target string of at most 16 digits and every
epoch string of 1 to 4 digits (covering epochs 1–9999), the produced identifier
contains exactly one "/target/" segment, followed by four groups of exactly 4
characters each; the trailing filename contains the zero-padded target id and
the epoch token exactly once each; and the padded target id and epoch token can
be re-extracted verbatim (round-trip). -/
theorem C2_roundtrip (t s : List Char)
    (htd : t.all Char.isDigit = true) (htl : t.length ≤ 16)
    (hsne : s ≠ []) (hsd : s.all Char.isDigit = true) (hsl : s.length ≤ 4) :
    countOccs "/target/".toList (generate_uri t s) = 1 ∧
    (∃ pre, generate_uri t s = pre ++ "/target/".toList ++
      (rjust t 16 '0').take 4 ++ ['/'] ++ ((rjust t 16 '0').drop 4).take 4 ++ ['/'] ++
      ((rjust t 16 '0').drop 8).take 4 ++ ['/'] ++ ((rjust t 16 '0').drop 12).take 4 ++
      ['/'] ++ fnameCore (rjust t 16 '0') (rjust s 4 '0')) ∧
    ((rjust t 16 '0').take 4).length = 4 ∧
    (((rjust t 16 '0').drop 4).take 4).length = 4 ∧
    (((rjust t 16 '0').drop 8).take 4).length = 4 ∧
    (((rjust t 16 '0').drop 12).take 4).length = 4 ∧
    countOccs (rjust t 16 '0') (fnameCore (rjust t 16 '0') (rjust s 4 '0')) = 1 ∧
    countOccs ('s' :: rjust s 4 '0') (fnameCore (rjust t 16 '0') (rjust s 4 '0')) = 1 ∧
    decode_identifier (generate_uri t s) =
      some (rjust t 16 '0', 's' :: rjust s 4 '0') := by
  have hT := rjust_length t 16 '0' htl
  have hTd := rjust_all_digits t 16 htd
  have hD := rjust_length s 4 '0' hsl
  have hDd := rjust_all_digits s 4 hsd
  have huri := generate_uri_eq_uriOf t s htl
  refine ⟨?_, ?_, ?_, ?_, ?_, ?_, ?_, ?_, ?_⟩
  · rw [huri]
    exact countOccs_target_uriOf _ _ hT hTd hD hDd
  · refine ⟨"mast:HLSP/tess-spoc/".toList ++ 's' :: rjust s 4 '0', ?_⟩
    rw [huri]
    simp [uriOf, List.append_assoc]
  · rw [List.length_take, hT]
    omega
  · exact take_len4 _ hT 4 (by omega)
  · exact take_len4 _ hT 8 (by omega)
  · exact take_len4 _ hT 12 (by omega)
  · exact countOccs_tic_fname _ _ hT hTd hD
  · exact countOccs_token_fname _ _ hT hTd hD hDd
  · rw [huri]
    exact decode_uriOf _ _ hT hD

/-- Witness for claim C2 at the scenario inputs: target "12345678", epoch
string "7". -/
theorem C2_roundtrip_witness :
    ("12345678".toList.all Char.isDigit = true ∧ "12345678".toList.length ≤ 16 ∧
      "7".toList ≠ [] ∧ "7".toList.all Char.isDigit = true ∧
      "7".toList.length ≤ 4) ∧
    (countOccs "/target/".toList (generate_uri "12345678".toList "7".toList) = 1 ∧
    (∃ pre, generate_uri "12345678".toList "7".toList = pre ++ "/target/".toList ++
      (rjust "12345678".toList 16 '0').take 4 ++ ['/'] ++
      ((rjust "12345678".toList 16 '0').drop 4).take 4 ++ ['/'] ++
      ((rjust "12345678".toList 16 '0').drop 8).take 4 ++ ['/'] ++
      ((rjust "12345678".toList 16 '0').drop 12).take 4 ++
      ['/'] ++ fnameCore (rjust "12345678".toList 16 '0') (rjust "7".toList 4 '0')) ∧
    ((rjust "12345678".toList 16 '0').take 4).length = 4 ∧
    (((rjust "12345678".toList 16 '0').drop 4).take 4).length = 4 ∧
    (((rjust "12345678".toList 16 '0').drop 8).take 4).length = 4 ∧
    (((rjust "12345678".toList 16 '0').drop 12).take 4).length = 4 ∧
    countOccs (rjust "12345678".toList 16 '0')
      (fnameCore (rjust "12345678".toList 16 '0') (rjust "7".toList 4 '0')) = 1 ∧
    countOccs ('s' :: rjust "7".toList 4 '0')
      (fnameCore (rjust "12345678".toList 16 '0') (rjust "7".toList 4 '0')) = 1 ∧
    decode_identifier (generate_uri "12345678".toList "7".toList) =
      some (rjust "12345678".toList 16 '0', 's' :: rjust "7".toList 4 '0')) :=
  ⟨⟨by decide, by decide, by decide, by decide, by decide⟩,
    C2_roundtrip "12345678".toList "7".toList
      (by decide) (by decide) (by decide) (by decide) (by decide)⟩

/-- Witness for the amended claim C10 at the two-row scenario of the
counterexample. -/
theorem C10_amended_witness :
    get_tic_to_sectors [⟨"CP", "a", "1".toList⟩, ⟨"CP", "a", "30".toList⟩] =
      some [("a", [['1']])] ∧
    lookupAssoc [("a", [['1']])] "a" =
      lastNonemptyRetained [⟨"CP", "a", "1".toList⟩, ⟨"CP", "a", "30".toList⟩] "a" :=
  ⟨by decide,
    C10_amended [⟨"CP", "a", "1".toList⟩, ⟨"CP", "a", "30".toList⟩]
      [("a", [['1']])] (by decide) "a"⟩

end Artron
